import Mathlib

/-!
Verification of the svitlo_live timeline / transition engine.

The model is a shallow embedding of `custom_components/svitlo_live/coordinator.py`
and `custom_components/svitlo_live/calendar.py`:

* hour classes and half-hour states are the `String` codes used by the source
  ("on", "off", "f4", "f5");
* a day pack is the tuple `(date, hour_classes, halfhours)` returned by
  `parse_table`, with the date modelled as a day number (the `DD.MM.YYYY`
  parse is outside the claims);
* wall-clock readings are local Kyiv times as `Now` records; absolute local
  instants are counted in seconds (for the coordinator) resp. seconds from a
  day-zero epoch (for the calendar).  The `dt_util.as_utc` conversion is a
  fixed injective offset and is left outside the model;
* Python list indexing `xs[i]` at indices that are in bounds on every reachable
  input is modelled with `List.getD`.
-/

/-- Recognized class codes.  Modelled from the spec: the module `const.py`
holding `CLASS_MAP` is not among the sources; the spec fixes the recognized
hour-class codes as on, off, f4, f5 (spec sections 3 and 4.1).  Only key
membership `c in CLASS_MAP` is used by the parser. -/
def CLASS_MAP : List String := ["on", "off", "f4", "f5"]

/-- `halfhours_from_hour_class` from coordinator.py: one hour class becomes
two half-hour states; an unexpected class is treated as on-on. -/
def halfhours_from_hour_class (cls : String) : List String :=
  if cls = "on" then ["on", "on"]
  else if cls = "off" then ["off", "off"]
  else if cls = "f4" then ["off", "on"]
  else if cls = "f5" then ["on", "off"]
  else ["on", "on"]

/-- The class code of one table cell: the first class attribute that is a
`CLASS_MAP` key, defaulting to "on"
(`next((c for c in td.get("class", []) if c in CLASS_MAP), "on")`). -/
def classOfCell (td_classes : List String) : String :=
  (td_classes.find? (fun c => CLASS_MAP.contains c)).getD "on"

/-- A parsed day: `(date, hour_classes, halfhours)` as returned by `parse_table`. -/
abbrev Pack := Nat × List String × List String

/-- `parse_table` from coordinator.py, at its tokenized boundary: the date is
already parsed and `cells` is the list of class-attribute lists of the data
cells (the row after dropping the header cell).  The source keeps the first 24
cells when the count differs from 24 and never rejects a short row. -/
def parse_table (day : Nat) (cells : List (List String)) : Pack :=
  let cells24 := if cells.length ≠ 24 then cells.take 24 else cells
  let hour_classes := cells24.map classOfCell
  let halfhours := (hour_classes.map halfhours_from_hour_class).flatten
  (day, hour_classes, halfhours)

/-- A local wall-clock reading (Kyiv local time): calendar day number, hour,
minute, second.  Sub-second precision never influences the modelled logic. -/
structure Now where
  day : Nat
  hour : Nat
  minute : Nat
  second : Nat
deriving DecidableEq, Repr

/-- A local wall-clock reading as seconds from the day-zero epoch. -/
def nowTotalSeconds (t : Now) : Nat :=
  ((t.day * 24 + t.hour) * 60 + t.minute) * 60 + t.second

/-- The first element of `js` satisfying `p` (the `for ... return j` loop of
`next_change_idx`). -/
def firstSuchThat (p : Nat → Bool) : List Nat → Option Nat
  | [] => none
  | j :: rest => if p j then some j else firstSuchThat p rest

/-- `next_change_idx` from coordinator.py: scan `j = (idx+step) % n` for
`step = 1 .. n` and return the first `j` whose state differs from
`series[idx]`. -/
def next_change_idx (series : List String) (idx : Nat) : Option Nat :=
  let cur := series.getD idx ""
  let n := series.length
  firstSuchThat (fun j => series.getD j "" != cur)
    ((List.range n).map (fun step => (idx + (step + 1)) % n))

/-- Index of the first element of the list that is a member of `targets`,
counting from accumulator `i`
(`next((i for i, s in enumerate(seq2) if s in target_states), None)`). -/
def firstMatchIdx (targets : List String) : Nat → List String → Option Nat
  | _, [] => none
  | i, s :: rest => if targets.contains s then some i else firstMatchIdx targets (i + 1) rest

/-- `find_next_at` from coordinator.py.  Builds the search sequence
`today_half[idx+1:] + today_half[:idx+1]`, extended by the tomorrow half-hour
grid when present; on a match at position `pos`, returns the local instant
obtained from "now" with seconds zeroed and the minute forced to its
half-hour block, plus `(pos+1)` half hours.  `base_date` is accepted and
unused exactly as in the source. -/
def find_next_at (target_states : List String) (base_date : Nat)
    (today_half : List String) (idx : Nat) (tomorrow_pack : Option Pack)
    (t : Now) : Option Nat :=
  let seq := today_half.drop (idx + 1) ++ today_half.take (idx + 1)
  let seq2 := seq ++ (match tomorrow_pack with
    | some p => p.2.2
    | none => [])
  match firstMatchIdx target_states 0 seq2 with
  | none => none
  | some pos =>
    let minute_block_start := if t.minute < 30 then 0 else 30
    let base_aligned := ((t.day * 24 + t.hour) * 60 + minute_block_start) * 60
    some (base_aligned + (pos + 1) * 1800)

/-- The status record built by `_build_payload` (the host presentation layer
is out of scope; fields keep the dictionary keys of the source).  The
`next_change_at` "HH:MM" string is modelled as the `(hour, minute)` pair it
renders. -/
structure Payload where
  queue : String
  date : Nat
  now_status : String
  now_halfhour_index : Nat
  next_change_at : Option (Nat × Nat)
  today_24h_classes : List String
  today_48half : List String
  updated : String
  source : String
  source_last_modified : Option String
  next_on_at : Option Nat
  next_off_at : Option Nat
  tomorrow_date : Option Nat
  tomorrow_24h_classes : Option (List String)
  tomorrow_48half : Option (List String)
deriving DecidableEq, Repr

/-- `_build_payload` from coordinator.py. -/
def build_payload (queue : String) (today_pack : Pack) (tomorrow_pack : Option Pack)
    (updated : String) (source_url : String) (source_last_modified : Option String)
    (t : Now) : Payload :=
  let today_date := today_pack.1
  let hour_classes := today_pack.2.1
  let halfhours := today_pack.2.2
  let idx := if t.day ≠ today_date then 0
    else t.hour * 2 + (if t.minute ≥ 30 then 1 else 0)
  let cur := halfhours.getD idx ""
  let nci := next_change_idx halfhours idx
  let next_change_hhmm := nci.map (fun j => (j / 2, if j % 2 = 1 then 30 else 0))
  let next_on_at := find_next_at ["on"] today_date halfhours idx tomorrow_pack t
  let next_off_at := find_next_at ["off"] today_date halfhours idx tomorrow_pack t
  { queue := queue
    date := today_date
    now_status := cur
    now_halfhour_index := idx
    next_change_at := next_change_hhmm
    today_24h_classes := hour_classes
    today_48half := halfhours
    updated := updated
    source := source_url
    source_last_modified := source_last_modified
    next_on_at := next_on_at
    next_off_at := next_off_at
    tomorrow_date := tomorrow_pack.map (fun p => p.1)
    tomorrow_24h_classes := tomorrow_pack.map (fun p => p.2.1)
    tomorrow_48half := tomorrow_pack.map (fun p => p.2.2) }

/-- The candidate fire instant armed by `_schedule_precise_refresh`: the
computed HH:MM anchored at the date of the payload, moved one calendar day
later when not strictly after "now" (comparisons at second precision; the
candidate has its seconds zeroed by the source). -/
def schedule_candidate (base_day : Nat) (hh mm : Nat) (t : Now) : Nat :=
  let candidate := ((base_day * 24 + hh) * 60 + mm) * 60
  if candidate ≤ nowTotalSeconds t then candidate + 86400 else candidate

/-- `_precise_tick` from coordinator.py, restricted to its published record:
with a cached today pack it rebuilds the payload from the cache at the current
wall clock, reusing the metadata of the previously published record (or the
fallbacks of the source when none exists); without a cache nothing is
published.  The unconditional refresh request is an external effect outside
the model. -/
def precise_tick (queue : String) (today_cached : Option Pack)
    (tomorrow_cached : Option Pack) (prev : Option Payload)
    (fallback_updated : String) (t : Now) : Option Payload :=
  match today_cached with
  | none => none
  | some tp =>
    some (build_payload queue tp tomorrow_cached
      (match prev with
        | some d => d.updated
        | none => fallback_updated)
      (match prev with
        | some d => d.source
        | none => "")
      (match prev with
        | some d => d.source_last_modified
        | none => none)
      t)

/-- A calendar event of `_make_event`, reduced to its two instants; instants
are local Kyiv seconds from the day-zero epoch.  `stop` models the `end`
field; the summary and description strings are presentation only. -/
structure CalEvent where
  start : Nat
  stop : Nat
deriving DecidableEq, Repr

/-- `_make_event` from calendar.py: slot indices to instants; an `end_idx` of
48 becomes local midnight of the following day. -/
def make_event (day : Nat) (start_idx end_idx : Nat) : CalEvent :=
  let start_h := start_idx / 2
  let start_m := if start_idx % 2 = 1 then 30 else 0
  let end_h := end_idx / 2
  let end_m := if end_idx % 2 = 1 then 30 else 0
  if end_idx < 48 then
    { start := day * 86400 + start_h * 3600 + start_m * 60
      stop := day * 86400 + end_h * 3600 + end_m * 60 }
  else
    { start := day * 86400 + start_h * 3600 + start_m * 60
      stop := (day + 1) * 86400 }

/-- The scanning loop of `_build_day_events`: `rest` holds the slots from
index `i` on, `cur` the state of the open run that began at `start_idx`. -/
def buildGo (day : Nat) : List String → String → Nat → Nat → List CalEvent
  | [], cur, start_idx, i =>
    if cur = "off" then [make_event day start_idx i] else []
  | x :: rest, cur, start_idx, i =>
    if x ≠ cur then
      (if cur = "off" then [make_event day start_idx i] else []) ++ buildGo day rest x i (i + 1)
    else
      buildGo day rest cur start_idx (i + 1)

/-- `_build_day_events` from calendar.py: the guard returns no events when the
date label is absent or the grid does not have exactly 48 entries; otherwise
the off-runs of the grid become events. -/
def build_day_events (date? : Option Nat) (halfhours : List String) : List CalEvent :=
  match date? with
  | none => []
  | some day =>
    if halfhours.length ≠ 48 then []
    else
      match halfhours with
      | [] => []
      | c :: rest => buildGo day rest c 0 1

/-- Whether slot `j` of day `day` lies inside one of the events (each event is
a half-open instant interval). -/
def coversSlot (evs : List CalEvent) (day j : Nat) : Bool :=
  evs.any (fun ev =>
    decide (ev.start ≤ day * 86400 + j * 1800) && decide (day * 86400 + j * 1800 < ev.stop))

/-- Re-expansion of an event list onto the 48-slot half-hour grid of `day`:
a slot inside an outage event is off, every other slot is on. -/
def reexpand (day : Nat) (evs : List CalEvent) : List String :=
  (List.range 48).map (fun j => if coversSlot evs day j then "off" else "on")

/-- A concrete 48-slot grid: off during slots 0..11, on afterwards. -/
def gridA : List String := List.replicate 12 "off" ++ List.replicate 36 "on"

/-- A concrete 48-slot grid: off in slot 0 only. -/
def gridB : List String := "off" :: List.replicate 47 "on"

/-- A concrete 48-slot grid: on everywhere except the last two slots. -/
def gridC : List String := List.replicate 46 "on" ++ ["off", "off"]

/-- The spec example hour classes: off, then four on, f4 at index 5, on for
the remaining 18 hours. -/
def codesEx : List String := "off" :: List.replicate 4 "on" ++ "f4" :: List.replicate 18 "on"

-- ---------------------------------------------------------------------------
-- Helper lemmas
-- ---------------------------------------------------------------------------

theorem hfc_length (c : String) : (halfhours_from_hour_class c).length = 2 := by
  by_cases h1 : c = "on" <;> by_cases h2 : c = "off" <;> by_cases h3 : c = "f4" <;>
    by_cases h4 : c = "f5" <;> simp [halfhours_from_hour_class, h1, h2, h3, h4]

theorem join_map_hfc_length (l : List String) :
    ((l.map halfhours_from_hour_class).flatten).length = 2 * l.length := by
  induction l with
  | nil => rfl
  | cons c rest ih =>
    simp only [List.map_cons, List.flatten_cons, List.length_append, ih, hfc_length,
      List.length_cons]
    omega

/-- Claim C1 counterexample: a row of 23 cells is not rejected; `parse_table`
returns a day pack whose `hour_classes` has 23 entries and whose `halfhours`
has 46, so a day schedule shorter than the mandated 24/48 entries is
produced. -/
theorem c1_counterexample :
    (parse_table 0 (List.replicate 23 ["off"])).2.1.length = 23 ∧
    (parse_table 0 (List.replicate 23 ["off"])).2.2.length = 46 ∧
    (parse_table 0 (List.replicate 23 ["off"])).2.1.length < 24 := by
  refine ⟨by decide, by decide, by decide⟩

/-- Claim C1 (amended): `parse_table` never rejects on the cell count; for
every cell row the hour classes are the class codes of the first
`min 24 n` cells (all cells when fewer than 24 are supplied, exactly the
first 24 when more are supplied), and the half-hour grid has twice that
length. -/
theorem c1_amended (d : Nat) (cells : List (List String)) :
    (parse_table d cells).2.1 = (cells.take 24).map classOfCell ∧
    (parse_table d cells).2.1.length = min 24 cells.length ∧
    (parse_table d cells).2.2.length = 2 * min 24 cells.length := by
  have htake : (parse_table d cells).2.1 = (cells.take 24).map classOfCell := by
    by_cases h : cells.length = 24
    · have hcells : cells.take 24 = cells :=
        List.take_of_length_le (le_of_eq h)
      simp [parse_table, h, hcells]
    · simp [parse_table, h]
  refine ⟨htake, ?_, ?_⟩
  · rw [htake]; simp [List.length_take]
  · have hjoin : (parse_table d cells).2.2 =
        (((parse_table d cells).2.1).map halfhours_from_hour_class).flatten := rfl
    rw [hjoin, join_map_hfc_length, htake]
    simp [List.length_take]

/-- Claim C2: for every sequence of 24 hour-class codes the derived half-hour
grid has exactly 48 entries; `parse_table` derives its half-hour grid exactly
as the in-order concatenation of the per-hour expansions of its hour classes;
the expansion table is on to on-on, off to off-off, f4 to off-on, f5 to
on-off; any other code, and any cell without a recognized code, expands to
on-on. -/
theorem c2_halfhour_expansion (codes : List String) (hlen : codes.length = 24) :
    ((codes.map halfhours_from_hour_class).flatten).length = 48 ∧
    (∀ (d : Nat) (cells : List (List String)),
      (parse_table d cells).2.2 =
        (((parse_table d cells).2.1).map halfhours_from_hour_class).flatten) ∧
    halfhours_from_hour_class "on" = ["on", "on"] ∧
    halfhours_from_hour_class "off" = ["off", "off"] ∧
    halfhours_from_hour_class "f4" = ["off", "on"] ∧
    halfhours_from_hour_class "f5" = ["on", "off"] ∧
    (∀ c : String, c ≠ "on" → c ≠ "off" → c ≠ "f4" → c ≠ "f5" →
      halfhours_from_hour_class c = ["on", "on"]) ∧
    (∀ td : List String, (∀ c ∈ td, CLASS_MAP.contains c = false) →
      halfhours_from_hour_class (classOfCell td) = ["on", "on"]) := by
  refine ⟨?_, fun d cells => rfl, rfl, rfl, rfl, rfl, ?_, ?_⟩
  · rw [join_map_hfc_length, hlen]
  · intro c h1 h2 h3 h4
    simp [halfhours_from_hour_class, h1, h2, h3, h4]
  · intro td h
    have hnone : td.find? (fun c => CLASS_MAP.contains c) = none :=
      List.find?_eq_none.mpr (fun x hx => by simpa using h x hx)
    unfold classOfCell
    rw [hnone]
    decide

/-- Claim C2 witness: the spec example classes (off, four on, f4, eighteen on)
yield a 48-entry grid with slot 10 off and slot 11 on. -/
theorem c2_witness :
    ((codesEx.map halfhours_from_hour_class).flatten).length = 48 ∧
    ((codesEx.map halfhours_from_hour_class).flatten).getD 10 "" = "off" ∧
    ((codesEx.map halfhours_from_hour_class).flatten).getD 11 "" = "on" :=
  ⟨(c2_halfhour_expansion codesEx (by decide)).1, by decide, by decide⟩

/-- Claim C10: the day-event builder returns no events, and in particular
raises nothing and reads no slot, when the date label is absent or the grid
does not have exactly 48 entries. -/
theorem c10_total_boundary (date? : Option Nat) (halfhours : List String)
    (h : date? = none ∨ halfhours.length ≠ 48) :
    build_day_events date? halfhours = [] := by
  cases date? with
  | none => rfl
  | some day =>
    have hlen : halfhours.length ≠ 48 := by
      rcases h with h | h
      · exact absurd h (by simp)
      · exact h
    simp [build_day_events, hlen]

/-- Claim C10 witness: a missing date and a one-slot grid both produce no
events. -/
theorem c10_witness :
    build_day_events none gridA = [] ∧ build_day_events (some 0) ["on"] = [] :=
  ⟨c10_total_boundary none gridA (Or.inl rfl),
   c10_total_boundary (some 0) ["on"] (Or.inr (by decide))⟩

theorem firstSuchThat_eq_none (p : Nat → Bool) :
    ∀ l : List Nat, firstSuchThat p l = none ↔ ∀ j ∈ l, p j = false := by
  intro l
  induction l with
  | nil => simp [firstSuchThat]
  | cons j rest ih =>
    by_cases hj : p j
    · simp [firstSuchThat, hj]
    · simp only [firstSuchThat, if_neg hj, ih, List.mem_cons]
      constructor
      · intro hall x hx
        rcases hx with hx | hx
        · subst hx; simpa using hj
        · exact hall x hx
      · intro hall x hx
        exact hall x (Or.inr hx)

theorem firstSuchThat_eq_some (p : Nat → Bool) :
    ∀ (l : List Nat) (v : Nat), firstSuchThat p l = some v →
      ∃ k, k < l.length ∧ l.getD k 0 = v ∧ p v = true ∧
        ∀ k2, k2 < k → p (l.getD k2 0) = false := by
  intro l
  induction l with
  | nil => intro v h; simp [firstSuchThat] at h
  | cons j rest ih =>
    intro v h
    by_cases hj : p j
    · simp only [firstSuchThat, if_pos hj, Option.some.injEq] at h
      subst h
      exact ⟨0, by simp, by simp, hj, fun k2 hk2 => absurd hk2 (by omega)⟩
    · simp only [firstSuchThat, if_neg hj] at h
      obtain ⟨k, hk, hg, hp, hfirst⟩ := ih v h
      refine ⟨k + 1, by simp [Nat.succ_lt_succ hk], by simpa using hg, hp, ?_⟩
      intro k2 hk2
      cases k2 with
      | zero => simpa using hj
      | succ k3 => simpa using hfirst k3 (by omega)

theorem getD_range_map (f : Nat → Nat) (n k : Nat) (hk : k < n) :
    ((List.range n).map f).getD k 0 = f k := by
  have hlen : k < ((List.range n).map f).length := by simpa using hk
  rw [List.getD_eq_getElem _ _ hlen]
  simp

/-- Claim C3: on a 48-slot grid with a valid current index, `next_change_idx`
is absent exactly when all 48 slots share one state, and any returned index is
the first index of the circular forward scan, at most 48 steps, whose state
differs from the state at `idx`. -/
theorem c3_next_change (series : List String) (idx : Nat)
    (hlen : series.length = 48) (hidx : idx < 48) :
    (next_change_idx series idx = none ↔
      ∀ i, i < 48 → ∀ i2, i2 < 48 → series.getD i "" = series.getD i2 "") ∧
    (∀ j, next_change_idx series idx = some j →
      series.getD j "" ≠ series.getD idx "" ∧
      ∃ step, 1 ≤ step ∧ step ≤ 48 ∧ j = (idx + step) % 48 ∧
        ∀ step2, 1 ≤ step2 → step2 < step →
          series.getD ((idx + step2) % 48) "" = series.getD idx "") := by
  have hL : next_change_idx series idx =
      firstSuchThat (fun j => series.getD j "" != series.getD idx "")
        ((List.range 48).map (fun step => (idx + (step + 1)) % 48)) := by
    simp [next_change_idx, hlen]
  constructor
  · rw [hL, firstSuchThat_eq_none]
    constructor
    · intro hall
      have key : ∀ m, m < 48 → series.getD m "" = series.getD idx "" := by
        intro m hm
        have hmem : (idx + ((m + 47 - idx) % 48 + 1)) % 48 = m := by omega
        have hx := hall ((idx + ((m + 47 - idx) % 48 + 1)) % 48)
          (List.mem_map.mpr ⟨(m + 47 - idx) % 48, List.mem_range.mpr (by omega), rfl⟩)
        rw [hmem] at hx
        exact bne_eq_false_iff_eq.mp hx
      exact fun i hi i2 hi2 => (key i hi).trans (key i2 hi2).symm
    · intro hsame j hjmem
      obtain ⟨s, hs, rfl⟩ := List.mem_map.mp hjmem
      have hj : (idx + (s + 1)) % 48 < 48 := Nat.mod_lt _ (by omega)
      exact bne_eq_false_iff_eq.mpr (hsame _ hj idx hidx)
  · intro j h
    rw [hL] at h
    obtain ⟨k, hk, hg, hp, hfirst⟩ := firstSuchThat_eq_some _ _ _ h
    have hkl : k < 48 := by simpa using hk
    rw [getD_range_map _ 48 k hkl] at hg
    refine ⟨by simpa using hp, k + 1, by omega, by omega, hg.symm, ?_⟩
    intro step2 h1 h2
    have hx := hfirst (step2 - 1) (by omega)
    rw [getD_range_map _ 48 _ (by omega)] at hx
    have hst : step2 - 1 + 1 = step2 := by omega
    rw [hst] at hx
    exact bne_eq_false_iff_eq.mp hx

/-- Claim C3 witness: on the grid that is off in slot 0 only, scanning from
index 0 returns index 1, whose state indeed differs from the state at 0. -/
theorem c3_witness :
    gridB.getD 1 "" ≠ gridB.getD 0 "" ∧ next_change_idx gridB 0 = some 1 := by
  have h := (c3_next_change gridB 0 (by decide) (by decide)).2 1 (by decide)
  exact ⟨h.1, by decide⟩

/-- Claim C6: the current-slot index of the payload is `hour*2` plus one when
the minute is at least 30, whenever the wall-clock date equals the date of the
schedule, and 0 whenever the dates differ; at 10:15 it is 20 and at 10:45 it
is 21. -/
theorem c6_current_slot (queue : String) (tp : Pack) (tomp : Option Pack)
    (upd src : String) (slm : Option String) (t : Now) :
    ((t.day = tp.1 →
      (build_payload queue tp tomp upd src slm t).now_halfhour_index =
        t.hour * 2 + (if 30 ≤ t.minute then 1 else 0)) ∧
     (t.day ≠ tp.1 →
      (build_payload queue tp tomp upd src slm t).now_halfhour_index = 0)) ∧
    (t.day = tp.1 → t.hour = 10 → t.minute = 15 →
      (build_payload queue tp tomp upd src slm t).now_halfhour_index = 20) ∧
    (t.day = tp.1 → t.hour = 10 → t.minute = 45 →
      (build_payload queue tp tomp upd src slm t).now_halfhour_index = 21) := by
  have hidx : (build_payload queue tp tomp upd src slm t).now_halfhour_index =
      if t.day ≠ tp.1 then 0 else t.hour * 2 + (if t.minute ≥ 30 then 1 else 0) := rfl
  refine ⟨⟨?_, ?_⟩, ?_, ?_⟩
  · intro h
    rw [hidx, if_neg (fun hc => hc h)]
  · intro h
    rw [hidx, if_pos h]
  · intro h h10 h15
    rw [hidx, if_neg (fun hc => hc h), h10, h15]
    decide
  · intro h h10 h45
    rw [hidx, if_neg (fun hc => hc h), h10, h45]
    decide

/-- Claim C6 witness: dates equal, 10:15 gives slot 20; dates differ, slot
0. -/
theorem c6_witness :
    (build_payload "q" (0, [], gridA) none "u" "s" none ⟨0, 10, 15, 0⟩).now_halfhour_index = 20 ∧
    (build_payload "q" (3, [], gridA) none "u" "s" none ⟨0, 10, 15, 0⟩).now_halfhour_index = 0 :=
  ⟨(c6_current_slot "q" (0, [], gridA) none "u" "s" none ⟨0, 10, 15, 0⟩).2.1 rfl rfl rfl,
   (c6_current_slot "q" (3, [], gridA) none "u" "s" none ⟨0, 10, 15, 0⟩).1.2 (by decide)⟩

/-- Claim C7 counterexample: with the payload date one day behind the wall
clock (anchor day 0, next change 06:00, now = day 1 at 10:00) the candidate
day 0 06:00 lies in the past, one day is added, and the armed instant
(day 1 06:00) is still not strictly in the future. -/
theorem c7_counterexample :
    schedule_candidate 0 6 0 ⟨1, 10, 0, 0⟩ ≤ nowTotalSeconds ⟨1, 10, 0, 0⟩ := by
  decide

/-- Claim C7 (amended): the candidate is anchored at the payload date with the
computed HH:MM; exactly one calendar day is added when the candidate is not
strictly after now, and otherwise the candidate is kept; the armed instant is
strictly in the future whenever the anchor date is not earlier than the
wall-clock date (it can stay in the past when the anchor date is stale).  The
rollover examples hold: next change 06:00 polled at 05:00 arms today 06:00,
polled at 06:30 arms tomorrow 06:00. -/
theorem c7_schedule_rollover (base_day hh mm : Nat) (t : Now)
    (hhr : t.hour < 24) (hmin : t.minute < 60) (hsec : t.second < 60)
    (hday : t.day ≤ base_day) :
    nowTotalSeconds t < schedule_candidate base_day hh mm t ∧
    (((base_day * 24 + hh) * 60 + mm) * 60 ≤ nowTotalSeconds t →
      schedule_candidate base_day hh mm t = ((base_day * 24 + hh) * 60 + mm) * 60 + 86400) ∧
    (nowTotalSeconds t < ((base_day * 24 + hh) * 60 + mm) * 60 →
      schedule_candidate base_day hh mm t = ((base_day * 24 + hh) * 60 + mm) * 60) ∧
    schedule_candidate base_day 6 0 ⟨base_day, 5, 0, 0⟩ = base_day * 86400 + 21600 ∧
    schedule_candidate base_day 6 0 ⟨base_day, 6, 30, 0⟩ = (base_day + 1) * 86400 + 21600 := by
  refine ⟨?_, ?_, ?_, ?_, ?_⟩
  · simp only [schedule_candidate, nowTotalSeconds] at *
    split <;> omega
  · intro h
    simp only [schedule_candidate, nowTotalSeconds] at *
    rw [if_pos h]
  · intro h
    simp only [schedule_candidate, nowTotalSeconds] at *
    rw [if_neg (by omega)]
  · simp only [schedule_candidate, nowTotalSeconds]
    rw [if_neg (by omega)]
    omega
  · simp only [schedule_candidate, nowTotalSeconds]
    rw [if_pos (by omega)]
    omega

/-- Claim C7 witness: next change 06:00 polled the same day at 06:30 arms an
instant strictly after now (tomorrow 06:00). -/
theorem c7_witness :
    nowTotalSeconds ⟨5, 6, 30, 0⟩ < schedule_candidate 5 6 0 ⟨5, 6, 30, 0⟩ ∧
    schedule_candidate 5 6 0 ⟨5, 6, 30, 0⟩ = 6 * 86400 + 21600 := by
  have h := c7_schedule_rollover 5 6 0 ⟨5, 6, 30, 0⟩ (by decide) (by decide) (by decide)
    (by decide)
  exact ⟨h.1, by decide⟩

/-- Claim C8: when the precise timer fires with a cached today pack, the
republished record keeps the metadata of the previously published record
unchanged (poll timestamp, source URL, source last-modified) while the
time-derived fields are exactly those of a payload rebuilt from the cached
packs at the current wall clock. -/
theorem c8_metadata_preserved (queue : String) (tp : Pack) (tomc : Option Pack)
    (prev : Payload) (fu : String) (t : Now) :
    ∃ p, precise_tick queue (some tp) tomc (some prev) fu t = some p ∧
      p.updated = prev.updated ∧
      p.source = prev.source ∧
      p.source_last_modified = prev.source_last_modified ∧
      p.date = tp.1 ∧
      p.today_24h_classes = tp.2.1 ∧
      p.today_48half = tp.2.2 ∧
      p = build_payload queue tp tomc prev.updated prev.source prev.source_last_modified t :=
  ⟨build_payload queue tp tomc prev.updated prev.source prev.source_last_modified t,
    rfl, rfl, rfl, rfl, rfl, rfl, rfl, rfl⟩

theorem firstMatchIdx_none (targets : List String) :
    ∀ (l : List String) (i : Nat),
      firstMatchIdx targets i l = none ↔ ∀ s ∈ l, targets.contains s = false := by
  intro l
  induction l with
  | nil => intro i; simp [firstMatchIdx]
  | cons s rest ih =>
    intro i
    by_cases hs : targets.contains s
    · simp only [firstMatchIdx, if_pos hs]
      constructor
      · intro h; cases h
      · intro h
        have hc := h s (List.mem_cons_self s rest)
        rw [hc] at hs
        cases hs
    · simp only [firstMatchIdx, if_neg hs, ih, List.mem_cons]
      constructor
      · intro hall x hx
        rcases hx with hx | hx
        · subst hx; simpa using hs
        · exact hall x hx
      · intro hall x hx
        exact hall x (Or.inr hx)

theorem firstMatchIdx_some_bounds (targets : List String) :
    ∀ (l : List String) (i v : Nat),
      firstMatchIdx targets i l = some v → i ≤ v ∧ v < i + l.length := by
  intro l
  induction l with
  | nil => intro i v h; simp [firstMatchIdx] at h
  | cons s rest ih =>
    intro i v h
    by_cases hs : targets.contains s
    · simp only [firstMatchIdx, if_pos hs, Option.some.injEq] at h
      subst h
      simp
    · simp only [firstMatchIdx, if_neg hs] at h
      have := ih (i + 1) v h
      constructor <;> [omega; (simp only [List.length_cons]; omega)]

theorem rot_getD (l : List String) (m k : Nat) (hlen : l.length = 48)
    (hm : m ≤ 48) (hk : k < 48) :
    (l.drop m ++ l.take m).getD k "" = l.getD ((m + k) % 48) "" := by
  have hdl : (l.drop m).length = 48 - m := by simp [hlen]
  by_cases hcase : k < 48 - m
  · rw [List.getD_eq_getElem?_getD, List.getElem?_append_left (by rw [hdl]; omega),
      List.getElem?_drop]
    have hmod : (m + k) % 48 = m + k := by omega
    rw [hmod, List.getD_eq_getElem?_getD]
  · rw [List.getD_eq_getElem?_getD, List.getElem?_append_right (by rw [hdl]; omega), hdl,
      List.getElem?_take_of_lt (by omega : k - (48 - m) < m)]
    have hmod : (m + k) % 48 = k - (48 - m) := by omega
    rw [hmod, List.getD_eq_getElem?_getD]

theorem drop_take_length (l : List String) (m : Nat) (hlen : l.length = 48) :
    (l.drop m ++ l.take m).length = 48 := by
  simp [hlen]
  omega

theorem aligned_base_eq (t : Now) (hmin : t.minute < 60) (hsec : t.second < 60) :
    ((t.day * 24 + t.hour) * 60 + (if t.minute < 30 then 0 else 30)) * 60 =
      nowTotalSeconds t - nowTotalSeconds t % 1800 := by
  unfold nowTotalSeconds
  by_cases hb : t.minute < 30 <;> simp [hb] <;> omega

/-- Claim C4: `find_next_at` searches the remainder of today
(`idx+1 .. 47`) followed by the wrapped slots `0 .. idx` of today, each slot
of today exactly once (the sequence has length 48 and entry `k` is slot
`(idx+1+k) mod 48`), then the tomorrow grid when present; the result of a
first match at position `pos` is now truncated down to its half-hour boundary
plus `(pos+1)` half hours, so every returned instant lies exactly on a
half-hour boundary. -/
theorem c4_next_occurrence (target_states : List String) (base_date : Nat)
    (today : List String) (idx : Nat) (tomp : Option Pack) (t : Now)
    (hlen : today.length = 48) (hidx : idx < 48)
    (hmin : t.minute < 60) (hsec : t.second < 60) :
    find_next_at target_states base_date today idx tomp t =
      (firstMatchIdx target_states 0
          ((today.drop (idx + 1) ++ today.take (idx + 1)) ++
            (match tomp with
              | some p => p.2.2
              | none => []))).map
        (fun pos => (nowTotalSeconds t - nowTotalSeconds t % 1800) + (pos + 1) * 1800) ∧
    (today.drop (idx + 1) ++ today.take (idx + 1)).length = 48 ∧
    (∀ k, k < 48 →
      (today.drop (idx + 1) ++ today.take (idx + 1)).getD k "" =
        today.getD ((idx + 1 + k) % 48) "") ∧
    (∀ r, find_next_at target_states base_date today idx tomp t = some r →
      r % 1800 = 0) := by
  have hbase := aligned_base_eq t hmin hsec
  have hmain : find_next_at target_states base_date today idx tomp t =
      (firstMatchIdx target_states 0
          ((today.drop (idx + 1) ++ today.take (idx + 1)) ++
            (match tomp with
              | some p => p.2.2
              | none => []))).map
        (fun pos => (nowTotalSeconds t - nowTotalSeconds t % 1800) + (pos + 1) * 1800) := by
    cases h : firstMatchIdx target_states 0
        ((today.drop (idx + 1) ++ today.take (idx + 1)) ++
          (match tomp with
            | some p => p.2.2
            | none => [])) with
    | none => simp only [find_next_at, h, Option.map_none']
    | some pos =>
      simp only [find_next_at, h, Option.map_some']
      rw [← hbase]
  refine ⟨hmain, drop_take_length today (idx + 1) hlen, ?_, ?_⟩
  · intro k hk
    exact rot_getD today (idx + 1) k hlen (by omega) hk
  · intro r hr
    rw [hmain] at hr
    rcases Option.map_eq_some'.mp hr with ⟨pos, hpos, hval⟩
    omega

/-- Claim C4 witness: on the grid that is off for slots 0..11 and on
afterwards, from slot 20 at 10:45:07 the next off instant is 88200 seconds
(24:30 local), exactly on a half-hour boundary. -/
theorem c4_witness :
    find_next_at ["off"] 0 gridA 20 none ⟨0, 10, 45, 7⟩ = some 88200 ∧
    (88200 : Nat) % 1800 = 0 := by
  have h := c4_next_occurrence ["off"] 0 gridA 20 none ⟨0, 10, 45, 7⟩ (by decide)
    (by decide) (by decide) (by decide)
  have e : find_next_at ["off"] 0 gridA 20 none ⟨0, 10, 45, 7⟩ = some 88200 := by
    rw [h.1]
    decide
  exact ⟨e, h.2.2.2 88200 e⟩

/-- Claim C9: `find_next_at` is absent exactly when no slot of today and no
slot of the tomorrow grid (when present) is in the target states; with no
tomorrow grid, a target state present anywhere in today, even only in
already-passed slots, still yields an instant at most 24 hours after now. -/
theorem c9_wraparound (target_states : List String) (base_date : Nat)
    (today : List String) (idx : Nat) (tomp : Option Pack) (t : Now)
    (hlen : today.length = 48) :
    (find_next_at target_states base_date today idx tomp t = none ↔
      (∀ s ∈ today, target_states.contains s = false) ∧
      (∀ s ∈ (match tomp with
        | some p => p.2.2
        | none => []), target_states.contains s = false)) ∧
    (tomp = none → (∃ s ∈ today, target_states.contains s = true) →
      ∃ r, find_next_at target_states base_date today idx tomp t = some r ∧
        r ≤ nowTotalSeconds t + 86400) := by
  have hmem : ∀ s : String,
      s ∈ today.drop (idx + 1) ++ today.take (idx + 1) ↔ s ∈ today := by
    intro s
    constructor
    · intro h
      rcases List.mem_append.mp h with h | h
      · exact List.drop_subset _ _ h
      · exact List.take_subset _ _ h
    · intro h
      rw [← List.take_append_drop (idx + 1) today] at h
      rcases List.mem_append.mp h with h | h
      · exact List.mem_append.mpr (Or.inr h)
      · exact List.mem_append.mpr (Or.inl h)
  constructor
  · have hnone : find_next_at target_states base_date today idx tomp t = none ↔
        firstMatchIdx target_states 0
          ((today.drop (idx + 1) ++ today.take (idx + 1)) ++
            (match tomp with
              | some p => p.2.2
              | none => [])) = none := by
      cases h : firstMatchIdx target_states 0
          ((today.drop (idx + 1) ++ today.take (idx + 1)) ++
            (match tomp with
              | some p => p.2.2
              | none => [])) with
      | none => simp only [find_next_at, h]
      | some pos => simp only [find_next_at, h]; simp
    rw [hnone, firstMatchIdx_none]
    constructor
    · intro hall
      constructor
      · intro s hs
        exact hall s (List.mem_append.mpr (Or.inl ((hmem s).mpr hs)))
      · intro s hs
        exact hall s (List.mem_append.mpr (Or.inr hs))
    · intro hall s hs
      rcases List.mem_append.mp hs with hs | hs
      · exact hall.1 s ((hmem s).mp hs)
      · exact hall.2 s hs
  · intro htom hex
    subst htom
    obtain ⟨s, hsmem, hsc⟩ := hex
    have hne : firstMatchIdx target_states 0
        ((today.drop (idx + 1) ++ today.take (idx + 1)) ++ ([] : List String)) ≠ none := by
      intro h0
      have hall := (firstMatchIdx_none target_states _ 0).mp h0
      have hfs := hall s (List.mem_append.mpr (Or.inl ((hmem s).mpr hsmem)))
      rw [hsc] at hfs
      cases hfs
    obtain ⟨pos, hpos⟩ := Option.ne_none_iff_exists'.mp hne
    have hbounds := firstMatchIdx_some_bounds target_states _ _ _ hpos
    have hlen2 : ((today.drop (idx + 1) ++ today.take (idx + 1)) ++ ([] : List String)).length
        = 48 := by
      rw [List.append_nil]
      exact drop_take_length today (idx + 1) hlen
    refine ⟨((t.day * 24 + t.hour) * 60 + (if t.minute < 30 then 0 else 30)) * 60 +
      (pos + 1) * 1800, ?_, ?_⟩
    · simp only [find_next_at, hpos]
    · rw [hlen2] at hbounds
      unfold nowTotalSeconds
      by_cases hb : t.minute < 30 <;> simp [hb] <;> omega

/-- Claim C9 witness: on the grid that is off only in slot 0 (an already
passed slot when the current index is 5) and with no tomorrow grid, the next
off instant is still found, 86400 seconds, within 24 hours of now. -/
theorem c9_witness :
    find_next_at ["off"] 0 gridB 5 none ⟨0, 2, 45, 0⟩ ≠ none ∧
    find_next_at ["off"] 0 gridB 5 none ⟨0, 2, 45, 0⟩ = some 86400 := by
  constructor
  · intro hnone
    have h := ((c9_wraparound ["off"] 0 gridB 5 none ⟨0, 2, 45, 0⟩ (by decide)).1.mp hnone).1
    have hc := h "off" (by decide)
    exact absurd hc (by decide)
  · decide

theorem make_event_start (day s e : Nat) :
    (make_event day s e).start = day * 86400 + s * 1800 := by
  by_cases he : e < 48 <;> by_cases h : s % 2 = 1 <;>
    simp [make_event, he, h] <;> omega

theorem make_event_stop (day s e : Nat) (he48 : e ≤ 48) :
    (make_event day s e).stop = day * 86400 + e * 1800 := by
  by_cases he : e < 48 <;> by_cases h : e % 2 = 1 <;>
    simp [make_event, he, h] <;> omega

theorem coversSlot_append (l1 l2 : List CalEvent) (day j : Nat) :
    coversSlot (l1 ++ l2) day j = (coversSlot l1 day j || coversSlot l2 day j) := by
  simp [coversSlot, List.any_append]

theorem make_event_covers (day s e j : Nat) (he : e ≤ 48) :
    (coversSlot [make_event day s e] day j = true) ↔ (s ≤ j ∧ j < e) := by
  simp only [coversSlot, List.any_cons, List.any_nil, Bool.or_false, Bool.and_eq_true,
    decide_eq_true_eq]
  rw [make_event_start, make_event_stop day s e he]
  omega

theorem buildGo_covers (day : Nat) :
    ∀ (rest : List String) (cur : String) (start_idx i j : Nat),
      start_idx ≤ i → i + rest.length ≤ 48 →
      (coversSlot (buildGo day rest cur start_idx i) day j = true ↔
        ((start_idx ≤ j ∧ j < i ∧ cur = "off") ∨
         (i ≤ j ∧ j < i + rest.length ∧ rest.getD (j - i) "" = "off"))) := by
  intro rest
  induction rest with
  | nil =>
    intro cur start_idx i j h1 h2
    simp only [buildGo, List.length_nil, Nat.add_zero]
    by_cases hc : cur = "off"
    · rw [if_pos hc, make_event_covers day start_idx i j (by omega)]
      constructor
      · rintro ⟨ha, hb⟩; exact Or.inl ⟨ha, hb, hc⟩
      · rintro (⟨ha, hb, _⟩ | ⟨ha, hb, _⟩)
        · exact ⟨ha, hb⟩
        · omega
    · rw [if_neg hc]
      simp only [coversSlot, List.any_nil]
      constructor
      · intro hfalse; cases hfalse
      · rintro (⟨_, _, hoff⟩ | ⟨ha, hb, _⟩)
        · exact absurd hoff hc
        · omega
  | cons x rest2 ih =>
    intro cur start_idx i j h1 h2
    rw [List.length_cons] at h2 ⊢
    simp only [buildGo]
    by_cases hx : x ≠ cur
    · rw [if_pos hx, coversSlot_append, Bool.or_eq_true]
      have hrec := ih x i (i + 1) j (by omega) (by omega)
      by_cases hc : cur = "off"
      · rw [if_pos hc, make_event_covers day start_idx i j (by omega), hrec]
        constructor
        · rintro (⟨ha, hb⟩ | ⟨ha, hb, hoff⟩ | ⟨ha, hb, hoff⟩)
          · exact Or.inl ⟨ha, hb, hc⟩
          · refine Or.inr ⟨by omega, by omega, ?_⟩
            rw [show j - i = 0 from by omega, List.getD_cons_zero]
            exact hoff
          · refine Or.inr ⟨by omega, by omega, ?_⟩
            rw [show j - i = (j - (i + 1)) + 1 from by omega, List.getD_cons_succ]
            exact hoff
        · rintro (⟨ha, hb, _⟩ | ⟨ha, hb, hoff⟩)
          · exact Or.inl ⟨ha, hb⟩
          · rcases Nat.eq_or_lt_of_le ha with hj | hj
            · refine Or.inr (Or.inl ⟨by omega, by omega, ?_⟩)
              rw [show j - i = 0 from by omega, List.getD_cons_zero] at hoff
              exact hoff
            · refine Or.inr (Or.inr ⟨by omega, by omega, ?_⟩)
              rw [show j - i = (j - (i + 1)) + 1 from by omega, List.getD_cons_succ] at hoff
              exact hoff
      · rw [if_neg hc, hrec]
        simp only [coversSlot, List.any_nil, Bool.false_eq_true, false_or]
        constructor
        · rintro (⟨ha, hb, hoff⟩ | ⟨ha, hb, hoff⟩)
          · refine Or.inr ⟨by omega, by omega, ?_⟩
            rw [show j - i = 0 from by omega, List.getD_cons_zero]
            exact hoff
          · refine Or.inr ⟨by omega, by omega, ?_⟩
            rw [show j - i = (j - (i + 1)) + 1 from by omega, List.getD_cons_succ]
            exact hoff
        · rintro (⟨ha, hb, hoff⟩ | ⟨ha, hb, hoff⟩)
          · exact absurd hoff hc
          · rcases Nat.eq_or_lt_of_le ha with hj | hj
            · refine Or.inl ⟨by omega, by omega, ?_⟩
              rw [show j - i = 0 from by omega, List.getD_cons_zero] at hoff
              exact hoff
            · refine Or.inr ⟨by omega, by omega, ?_⟩
              rw [show j - i = (j - (i + 1)) + 1 from by omega, List.getD_cons_succ] at hoff
              exact hoff
    · rw [if_neg hx]
      have hxc : x = cur := not_not.mp hx
      have hrec := ih cur start_idx (i + 1) j (by omega) (by omega)
      rw [hrec]
      constructor
      · rintro (⟨ha, hb, hoff⟩ | ⟨ha, hb, hoff⟩)
        · rcases Nat.lt_or_ge j i with hji | hji
          · exact Or.inl ⟨ha, hji, hoff⟩
          · refine Or.inr ⟨hji, by omega, ?_⟩
            rw [show j - i = 0 from by omega, List.getD_cons_zero, hxc]
            exact hoff
        · refine Or.inr ⟨by omega, by omega, ?_⟩
          rw [show j - i = (j - (i + 1)) + 1 from by omega, List.getD_cons_succ]
          exact hoff
      · rintro (⟨ha, hb, hoff⟩ | ⟨ha, hb, hoff⟩)
        · exact Or.inl ⟨ha, by omega, hoff⟩
        · rcases Nat.eq_or_lt_of_le ha with hj | hj
          · refine Or.inl ⟨by omega, by omega, ?_⟩
            rw [show j - i = 0 from by omega, List.getD_cons_zero, hxc] at hoff
            exact hoff
          · refine Or.inr ⟨by omega, by omega, ?_⟩
            rw [show j - i = (j - (i + 1)) + 1 from by omega, List.getD_cons_succ] at hoff
            exact hoff

theorem build_day_events_covers (day : Nat) (h : List String) (hlen : h.length = 48)
    (j : Nat) (hj : j < 48) :
    (coversSlot (build_day_events (some day) h) day j = true ↔ h.getD j "" = "off") := by
  cases h with
  | nil => simp at hlen
  | cons c rest =>
    have hr : rest.length = 47 := by simpa using hlen
    simp only [build_day_events]
    rw [if_neg (fun hcontra => hcontra hlen)]
    rw [buildGo_covers day rest c 0 1 j (by omega) (by omega)]
    constructor
    · rintro (⟨_, hj1, hc⟩ | ⟨hj1, hj2, hoff⟩)
      · have hj0 : j = 0 := by omega
        subst hj0
        rw [List.getD_cons_zero]
        exact hc
      · rw [show j = (j - 1) + 1 from by omega, List.getD_cons_succ]
        exact hoff
    · intro hoff
      rcases Nat.eq_zero_or_pos j with hj0 | hjpos
      · subst hj0
        rw [List.getD_cons_zero] at hoff
        exact Or.inl ⟨Nat.le_refl 0, by omega, hoff⟩
      · refine Or.inr ⟨by omega, by omega, ?_⟩
        rw [show j = (j - 1) + 1 from by omega, List.getD_cons_succ] at hoff
        exact hoff

theorem buildGo_ends_off (day : Nat) :
    ∀ (rest : List String) (cur : String) (start_idx i : Nat),
      rest.getLastD cur = "off" →
      ∃ s, make_event day s (i + rest.length) ∈ buildGo day rest cur start_idx i := by
  intro rest
  induction rest with
  | nil =>
    intro cur start_idx i hlast
    have hc : cur = "off" := hlast
    refine ⟨start_idx, ?_⟩
    simp only [buildGo, List.length_nil, Nat.add_zero]
    rw [if_pos hc]
    exact List.mem_singleton.mpr rfl
  | cons x rest2 ih =>
    intro cur start_idx i hlast
    have hlast2 : rest2.getLastD x = "off" := by
      rwa [List.getLastD_cons] at hlast
    simp only [buildGo, List.length_cons]
    by_cases hx : x ≠ cur
    · rw [if_pos hx]
      obtain ⟨s, hs⟩ := ih x i (i + 1) hlast2
      refine ⟨s, List.mem_append.mpr (Or.inr ?_)⟩
      rwa [show i + 1 + rest2.length = i + (rest2.length + 1) from by omega] at hs
    · rw [if_neg hx]
      have hxc : x = cur := not_not.mp hx
      rw [hxc] at hlast2
      obtain ⟨s, hs⟩ := ih cur start_idx (i + 1) hlast2
      refine ⟨s, ?_⟩
      rwa [show i + 1 + rest2.length = i + (rest2.length + 1) from by omega] at hs

/-- Claim C5: for every 48-slot grid of on and off states, building the day
events and re-expanding them onto a 48-slot grid reproduces the grid exactly;
and when the off state reaches slot 47, an event ending at slot index 48 is
emitted whose end instant is local midnight of the following day. -/
theorem c5_interval_roundtrip (day : Nat) (h : List String) (hlen : h.length = 48) :
    ((∀ s ∈ h, s = "on" ∨ s = "off") →
      reexpand day (build_day_events (some day) h) = h) ∧
    (h.getD 47 "" = "off" →
      ∃ s, make_event day s 48 ∈ build_day_events (some day) h ∧
        (make_event day s 48).stop = (day + 1) * 86400) := by
  constructor
  · intro hstates
    have hlenr : (reexpand day (build_day_events (some day) h)).length = h.length := by
      simp [reexpand, hlen]
    apply List.ext_getElem hlenr
    intro n h1 h2
    have hn : n < 48 := by rw [hlen] at h2; exact h2
    simp only [reexpand, List.getElem_map, List.getElem_range]
    have hcov := build_day_events_covers day h hlen n hn
    have hgetD : h.getD n "" = h[n] := List.getD_eq_getElem h "" h2
    by_cases hc : coversSlot (build_day_events (some day) h) day n = true
    · rw [if_pos hc, ← hgetD]
      exact (hcov.mp hc).symm
    · rw [if_neg hc]
      rcases hstates h[n] (List.getElem_mem h2) with hon | hoff
      · exact hon.symm
      · exact absurd (hcov.mpr (by rw [hgetD]; exact hoff)) hc
  · intro hoff47
    cases h with
    | nil => simp at hlen
    | cons c rest =>
      have hr : rest.length = 47 := by simpa using hlen
      have h46 : 46 < rest.length := by omega
      have hlast : rest.getLastD c = "off" := by
        rw [List.getLastD_eq_getLast?, List.getLast?_eq_getElem?, hr]
        rw [show (47 : Nat) - 1 = 46 from rfl, List.getElem?_eq_getElem h46]
        rw [show (47 : Nat) = 46 + 1 from rfl, List.getD_cons_succ] at hoff47
        rw [List.getD_eq_getElem rest "" h46] at hoff47
        exact hoff47
      obtain ⟨s, hs⟩ := buildGo_ends_off day rest c 0 1 hlast
      rw [show 1 + rest.length = 48 from by omega] at hs
      refine ⟨s, ?_, rfl⟩
      simp only [build_day_events]
      rw [if_neg (fun hcontra => hcontra hlen)]
      exact hs

/-- Claim C5 witness: the grid that is on except in slots 46 and 47
round-trips through the event builder, and its final off run yields an event
ending at midnight of day 1. -/
theorem c5_witness :
    reexpand 0 (build_day_events (some 0) gridC) = gridC ∧
    ∃ s, make_event 0 s 48 ∈ build_day_events (some 0) gridC ∧
      (make_event 0 s 48).stop = 1 * 86400 := by
  have h := c5_interval_roundtrip 0 gridC (by decide)
  refine ⟨h.1 (by decide), ?_⟩
  obtain ⟨s, hs, hstop⟩ := h.2 (by decide)
  exact ⟨s, hs, by rw [hstop]⟩
